import Mathlib

/-!
# Relay node of the magnet ring (`src/services/magnet/main.go`)

A shallow embedding of the relay node: the hop payloads, the `hopHandler`
request handler, the identity resolver `detectMyID`, and a ring of such nodes
wired together by a transport.

Conventions:
* Go's `int` is `Int`, with explicit 64-bit wrap-around where the source performs
  arithmetic; values decoded from JSON or parsed by `strconv.Atoi` lie in the
  `int` range (`InRange`).
* The request body reaches the handler already decoded (`none` when
  `json.Decode` fails); outbound bodies are kept as the payload that was
  marshalled.
* The HTTP client is a parameter of the handler (`Net`); the response a handler
  produces is the status, headers and body it hands to its `ResponseWriter`.
* In a ring the client is the default `http.Client` of `main`: a reply reaches
  the calling handler after gzip decoding and redirect following (`received`).
* Library functions (`strings.Split`, `strconv.Atoi`, `fmt.Sprintf`,
  `http.Error`, `Header.Add`) follow their documented behaviour.
-/

namespace Magnet

/-! ## Machine integers -/

/-- Smallest value of Go's 64-bit `int`. -/
def minInt : Int := -(2 ^ 63)

/-- Largest value of Go's 64-bit `int`. -/
def maxInt : Int := 2 ^ 63 - 1

/-- Membership in the range of Go's `int`. -/
def InRange (x : Int) : Prop := minInt ≤ x ∧ x ≤ maxInt

instance (x : Int) : Decidable (InRange x) := by
  unfold InRange; exact inferInstance

/-- Two's complement wrap-around of an `int` result. -/
def wrapInt (x : Int) : Int := (x + 2 ^ 63) % 2 ^ 64 - 2 ^ 63

/-! ## Decimal rendering (`%d`) -/

/-- ASCII digit for `d < 10`. -/
def digitChar (d : Nat) : Char := Char.ofNat (48 + d)

/-- Decimal digits of `n`, most significant first; the first argument bounds the
number of digits produced. -/
def natDigits : Nat → Nat → List Char
  | 0, _ => []
  | fuel + 1, n =>
    if n < 10 then [digitChar n] else natDigits fuel (n / 10) ++ [digitChar (n % 10)]

/-- Decimal rendering of a natural number. -/
def formatNat (n : Nat) : List Char := natDigits (n + 1) n

/-- Rendering of an `int` by the `%d` verb. -/
def formatInt (x : Int) : List Char :=
  if x < 0 then '-' :: formatNat x.natAbs else formatNat x.natAbs

/-! ## Data model -/

/-- Message passed from magnet to magnet. -/
structure HopPayload where
  End : Int
  Current : Int
  deriving DecidableEq, Repr

/-- What magnets send to the experiment. -/
structure ExperimentPayload where
  End : Int
  Current : Int
  MagnetID : Int
  MagnetName : String
  deriving DecidableEq, Repr

/-- The process-wide variables set once in `main`. -/
structure Config where
  myID : Int
  ringSize : Int
  baseName : String
  serviceDNS : String
  experimentURL : String
  deriving DecidableEq, Repr

/-- An `http.Header`: keys with their values.  The order of the list is the
order in which a `range` loop visits the map. -/
abbrev Header := List (String × List String)

/-- The method `Header.Add`: append a value to the values of a key. -/
def Header.Add : Header → String → String → Header
  | [], k, v => [(k, [v])]
  | (k', vs) :: rest, k, v =>
    if k' = k then (k', vs ++ [v]) :: rest else (k', vs) :: Header.Add rest k v

/-- The method `Header.Values`: all values associated with a key. -/
def Header.Values : Header → String → List String
  | [], _ => []
  | (k', vs) :: rest, k =>
    if k' = k then vs ++ Header.Values rest k else Header.Values rest k

/-- Keys present in a header map. -/
def Header.keys (h : Header) : List String := h.map Prod.fst

/-- The method `Header.Get`: the first value of a key, `""` when it has none. -/
def Header.Get (h : Header) (k : String) : String := (Header.Values h k).headD ""

/-- The method `Header.Del`: remove a key with all its values. -/
def Header.Del (h : Header) (k : String) : Header := h.filter fun kv => kv.1 != k

/-- An HTTP response: what a downstream call returns and what a handler writes.
The body is the sequence of its bytes, kept as characters. -/
structure Response where
  status : Int
  header : Header
  body : List Char
  deriving DecidableEq, Repr

/-- Two responses agree on the wire: same status code, same body, and for every
header key the same values in the same order. -/
def Response.Same (a b : Response) : Prop :=
  a.status = b.status ∧ a.body = b.body ∧
    ∀ k, Header.Values a.header k = Header.Values b.header k

/-- JSON body of an outbound request: `json.Marshal` of one of the two payloads. -/
inductive OutBody where
  | hop (p : HopPayload)
  | report (e : ExperimentPayload)
  deriving DecidableEq, Repr

/-- An outbound `POST` request built by `http.NewRequestWithContext`.  Every
request carries `Content-Type: application/json` and the five-second deadline;
neither is represented. -/
structure OutReq where
  url : String
  body : OutBody
  deriving DecidableEq, Repr

/-- The HTTP client as seen by the handler: whether a request can be built for
a URL (`http.NewRequestWithContext`), and the result of `httpClient.Do`, which is
a response or a transport error (connection failure, timeout). -/
structure Net where
  newRequestOk : String → Bool
  Do : OutReq → Except String Response

/-- How a handler invocation ends: it wrote a response, or it panicked. -/
inductive Outcome where
  | wrote (r : Response)
  | panicked (msg : String)
  deriving DecidableEq, Repr

/-- Result of one handler invocation: its outcome and the `httpClient.Do` calls
it made, in order. -/
structure Result where
  outcome : Outcome
  calls : List OutReq
  deriving DecidableEq, Repr

/-- The response of an outcome, when one was written. -/
def Outcome.response : Outcome → Option Response
  | .wrote r => some r
  | .panicked _ => none

/-- Status code of an outcome, when a response was written. -/
def Outcome.status : Outcome → Option Int
  | .wrote r => some r.status
  | .panicked _ => none

/-! ## The handler -/

/-- The function `http.Error`: a plain-text error response. -/
def httpError (msg : String) (code : Int) : Response :=
  { status := code
    header := [("Content-Type", ["text/plain; charset=utf-8"]),
               ("X-Content-Type-Options", ["nosniff"])]
    body := msg.data ++ ['\n'] }

/-- The two nested `range` loops that copy every header value into `w.Header()`. -/
def copyHeader (src : Header) (w : Header) : Header :=
  src.foldl (fun w kv => kv.2.foldl (fun w v => Header.Add w kv.1 v) w) w

/-- Proxying of a downstream response: headers, `WriteHeader(resp.StatusCode)`,
then `io.Copy` of the body. -/
def proxyResponse (resp : Response) : Response :=
  { status := resp.status
    header := copyHeader resp.header []
    body := resp.body }

/-- The string `fmt.Sprintf("%s-%d", baseName, id)`. -/
def magnetName (baseName : String) (id : Int) : String :=
  baseName ++ "-" ++ String.mk (formatInt id)

/-- The string `fmt.Sprintf("http://%s-%d.%s:8080/hop", baseName, nextID, serviceDNS)`. -/
def hopURL (baseName : String) (nextID : Int) (serviceDNS : String) : String :=
  "http://" ++ baseName ++ "-" ++ String.mk (formatInt nextID) ++ "." ++ serviceDNS
    ++ ":8080/hop"

/-- The handler of `POST /hop`.  The argument `body` is the result of decoding
the request body into a `HopPayload` (`none` when decoding fails).  `json.Marshal`
cannot fail on the two payload structs, so its error branches do not appear. -/
def hopHandler (cfg : Config) (net : Net) (body : Option HopPayload) : Result :=
  match body with
  | none => ⟨.wrote (httpError "invalid JSON body" 400), []⟩
  | some payload =>
    if payload.End < 0 then
      ⟨.wrote (httpError "'end' must be >= 0" 400), []⟩
    else if payload.Current ≥ payload.End then
      -- Done? send to experiment
      if cfg.experimentURL = "" then
        ⟨.wrote (httpError "experiment URL not configured" 500), []⟩
      else
        let exp : ExperimentPayload :=
          { End := payload.End
            Current := payload.Current
            MagnetID := cfg.myID
            MagnetName := magnetName cfg.baseName cfg.myID }
        let req : OutReq := ⟨cfg.experimentURL, .report exp⟩
        if net.newRequestOk cfg.experimentURL = false then
          ⟨.wrote (httpError "failed to create experiment request" 500), []⟩
        else
          match net.Do req with
          | .error err =>
            ⟨.wrote (httpError ("experiment request failed: " ++ err) 502), [req]⟩
          | .ok resp => ⟨.wrote (proxyResponse resp), [req]⟩
    else if cfg.ringSize = 0 then
      -- Not done yet, but `%` by zero panics
      ⟨.panicked "runtime error: integer divide by zero", []⟩
    else
      -- Not done yet → forward to next magnet
      let nextID := Int.tmod (wrapInt (cfg.myID + 1)) cfg.ringSize
      let nextURL := hopURL cfg.baseName nextID cfg.serviceDNS
      let nextPayload : HopPayload :=
        { End := payload.End
          Current := wrapInt (payload.Current + 1) }
      let req : OutReq := ⟨nextURL, .hop nextPayload⟩
      if net.newRequestOk nextURL = false then
        ⟨.wrote (httpError "failed to create next magnet request" 500), []⟩
      else
        match net.Do req with
        | .error err =>
          ⟨.wrote (httpError ("next magnet request failed: " ++ err) 502), [req]⟩
        | .ok resp => ⟨.wrote (proxyResponse resp), [req]⟩

/-! ## Identity resolver -/

/-- The call `strings.Split(s, "-")`: the pieces of `s` between dashes. -/
def Split : List Char → List (List Char)
  | [] => [[]]
  | c :: cs =>
    if c = '-' then [] :: Split cs
    else
      match Split cs with
      | [] => [[c]]
      | p :: ps => (c :: p) :: ps

/-- Value of an ASCII decimal digit. -/
def digitVal (c : Char) : Option Nat :=
  if 48 ≤ c.toNat ∧ c.toNat ≤ 57 then some (c.toNat - 48) else none

/-- Reads a run of decimal digits onto an accumulator; `none` on any other
character. -/
def parseDigits : List Char → Nat → Option Nat
  | [], acc => some acc
  | c :: cs, acc =>
    match digitVal c with
    | none => none
    | some d => parseDigits cs (acc * 10 + d)

/-- Magnitude part of `strconv.Atoi`: at least one digit, nothing but digits. -/
def parseMagnitude (ds : List Char) : Except String Nat :=
  if ds = [] then .error "invalid syntax"
  else
    match parseDigits ds 0 with
    | none => .error "invalid syntax"
    | some n => .ok n

/-- The function `strconv.Atoi` for a 64-bit `int`: an optional sign followed by
decimal digits, with a range check. -/
def Atoi (s : List Char) : Except String Int :=
  match s with
  | [] => .error "invalid syntax"
  | c :: cs =>
    if c = '-' then
      match parseMagnitude cs with
      | .error e => .error e
      | .ok n => if -(n : Int) < minInt then .error "value out of range" else .ok (-(n : Int))
    else
      match parseMagnitude (if c = '+' then cs else c :: cs) with
      | .error e => .error e
      | .ok n => if maxInt < (n : Int) then .error "value out of range" else .ok (n : Int)

/-- The function `detectMyID`.  The argument `hostname` is the result of
`os.Hostname()`; an error result stands for `log.Fatalf`. -/
def detectMyID (base : String) (hostname : Except String String) : Except String Int :=
  match hostname with
  | .error err => .error ("cannot get hostname: " ++ err)
  | .ok hostname =>
    let parts := Split hostname.data
    let last := parts.getLastD []
    match Atoi last with
    | .error err => .error ("cannot parse ordinal from hostname: " ++ err)
    | .ok id => .ok id

/-! ## A ring of relay nodes -/

/-- Configuration shared by every node of a ring. -/
structure Ring where
  ringSize : Int
  baseName : String
  serviceDNS : String
  experimentURL : String
  deriving DecidableEq, Repr

/-- Configuration of the node with ordinal `o`. -/
def Ring.node (R : Ring) (o : Int) : Config :=
  { myID := o
    ringSize := R.ringSize
    baseName := R.baseName
    serviceDNS := R.serviceDNS
    experimentURL := R.experimentURL }

/-- What a URL can name: a ring member or the collector. -/
inductive Endpoint where
  | magnet (ordinal : Int)
  | collector
  deriving DecidableEq, Repr

/-- Everything outside the handlers: request construction, name resolution,
transport faults (a call that fails or times out, with its error text), the
collector's reply to a report, and what the HTTP client needs from outside when
it transforms a reply: the decoding of a gzip body, and the outcome of following
a redirect (the final response of the redirect chain, or the client's error).
The requests the client issues on its own while following a redirect belong to
the same `httpClient.Do` call and are answered outside the ring. -/
structure World where
  newRequestOk : String → Bool
  resolve : String → Option Endpoint
  fault : OutReq → Option String
  collector : ExperimentPayload → Response
  gunzip : List Char → List Char
  redirect : OutReq → Response → Except String Response

/-- Lower case of an ASCII letter. -/
def asciiLower (c : Char) : Char :=
  if 65 ≤ c.toNat ∧ c.toNat ≤ 90 then Char.ofNat (c.toNat + 32) else c

/-- ASCII case-insensitive equality (`ascii.EqualFold`). -/
def equalFold (a b : String) : Bool := a.data.map asciiLower == b.data.map asciiLower

/-- The transport decodes a reply's body: the request set no `Accept-Encoding`,
so the transport asked for gzip, and the reply's `Content-Encoding` is `gzip`. -/
def gzipEncoded (resp : Response) : Bool :=
  equalFold (Header.Get resp.header "Content-Encoding") "gzip"

/-- The default `http.Client` (no `CheckRedirect`) follows a reply: its status is
301, 302, 303, 307 or 308 and its `Location` is not empty. -/
def followsRedirect (resp : Response) : Bool :=
  decide ((resp.status = 301 ∨ resp.status = 302 ∨ resp.status = 303 ∨ resp.status = 307 ∨
    resp.status = 308) ∧ Header.Get resp.header "Location" ≠ "")

/-- What `httpClient.Do` returns for a request whose first reply is `raw`: a gzip
body is decoded and `Content-Encoding` and `Content-Length` are dropped; a
redirect is followed; any other reply is returned as it came. -/
def received (W : World) (req : OutReq) (raw : Response) : Except String Response :=
  let resp : Response :=
    if gzipEncoded raw then
      { status := raw.status
        header := Header.Del (Header.Del raw.header "Content-Encoding") "Content-Length"
        body := W.gunzip raw.body }
    else raw
  if followsRedirect resp then W.redirect req resp else .ok resp

/-- Decoding of a request body by a magnet (`json` ignores unknown fields). -/
def OutBody.asHop : OutBody → HopPayload
  | .hop p => p
  | .report e => { End := e.End, Current := e.Current }

/-- Decoding of a request body by the collector (missing fields stay zero). -/
def OutBody.asReport : OutBody → ExperimentPayload
  | .hop p => { End := p.End, Current := p.Current, MagnetID := 0, MagnetName := "" }
  | .report e => e

/-- An `httpClient.Do` call made by a handler of the ring, with the ordinal of
its sender. -/
structure Event where
  sender : Int
  req : OutReq
  deriving DecidableEq, Repr

/-- One `httpClient.Do` in the ring: the result the caller sees, and the calls
made further downstream while it waited.  The reply of the collector or of the
ring member reaches the caller as the client hands it over (`received`).  `next`
runs the handler of a ring member; `none` means that run did not finish. -/
def deliver (R : Ring) (W : World)
    (next : Int → Option HopPayload → Option (Outcome × List Event)) (req : OutReq) :
    Option (Except String Response × List Event) :=
  match W.fault req with
  | some err => some (.error err, [])
  | none =>
    match W.resolve req.url with
    | none => some (.error "no such host", [])
    | some .collector => some (received W req (W.collector req.body.asReport), [])
    | some (.magnet i) =>
      if 0 ≤ i ∧ i < R.ringSize then
        match next i (some req.body.asHop) with
        | none => none
        | some (.wrote r, t) => some (received W req r, t)
        | some (.panicked _, t) => some (.error "EOF", t)
      else some (.error "no such host", [])

/-- The handler of node `o` run inside the ring, with every downstream call
answered by the node or collector it reaches.  Returns the node's outcome and
all calls made in the ring, in order; `none` when the fuel does not suffice. -/
def ringRun (R : Ring) (W : World) : Nat → Int → Option HopPayload → Option (Outcome × List Event)
  | 0, _, _ => none
  | fuel + 1, o, body =>
    let down := deliver R W (ringRun R W fuel)
    let net : Net :=
      { newRequestOk := W.newRequestOk
        Do := fun req =>
          match down req with
          | some (res, _) => res
          | none => .error "unfinished" }
    let r := hopHandler (R.node o) net body
    r.calls.foldr
      (fun req acc =>
        match down req with
        | none => none
        | some (_, t) => acc.map fun (out, rest) => (out, (⟨o, req⟩ :: t) ++ rest))
      (some (r.outcome, []))

/-- Number of hops a message still has to make. -/
def hopsLeft (p : HopPayload) : Nat := (p.End - p.Current).toNat

/-- A traversal: message `p` submitted to the node with ordinal `o`. -/
def traverse (R : Ring) (W : World) (o : Int) (p : HopPayload) : Option (Outcome × List Event) :=
  ringRun R W (hopsLeft p + 1) o (some p)

/-- The forwarding hops among the calls of a traversal. -/
def hopEvents (t : List Event) : List Event :=
  t.filter fun e => match e.req.body with | .hop _ => true | .report _ => false

/-- The completion reports among the calls of a traversal. -/
def reportEvents (t : List Event) : List Event :=
  t.filter fun e => match e.req.body with | .hop _ => false | .report _ => true

/-! ## Wiring of a ring and the calls of a traversal -/

/-- The ring is wired as deployed: a positive size within `int`, a collector URL
that is set, every URL the nodes build is accepted by the HTTP client, the
collector URL reaches the collector, and the hop URL of ordinal `i` reaches
magnet `i`. -/
structure Ring.Wired (R : Ring) (W : World) : Prop where
  size_pos : 0 < R.ringSize
  size_le : R.ringSize ≤ maxInt
  url_set : R.experimentURL ≠ ""
  collector_ok : W.newRequestOk R.experimentURL = true
  collector_resolves : W.resolve R.experimentURL = some .collector
  hop_ok : ∀ i, 0 ≤ i → i < R.ringSize →
    W.newRequestOk (hopURL R.baseName i R.serviceDNS) = true
  hop_resolves : ∀ i, 0 ≤ i → i < R.ringSize →
    W.resolve (hopURL R.baseName i R.serviceDNS) = some (.magnet i)

/-- The transport always delivers: no call fails or times out. -/
def World.Reliable (W : World) : Prop := ∀ req, W.fault req = none

/-- The forwarding request node `o` builds for message `p`. -/
def hopCall (R : Ring) (o : Int) (p : HopPayload) : OutReq :=
  ⟨hopURL R.baseName ((o + 1) % R.ringSize) R.serviceDNS,
    .hop { End := p.End, Current := p.Current + 1 }⟩

/-- The completion report node `o` builds for message `p`. -/
def reportCall (R : Ring) (o : Int) (p : HopPayload) : OutReq :=
  ⟨R.experimentURL,
    .report
      { End := p.End
        Current := p.Current
        MagnetID := o
        MagnetName := R.baseName ++ "-" ++ String.mk (formatInt o) }⟩

/-- Ordinal of the node reached after `j` hops from ordinal `o`. -/
def nodeAfter (R : Ring) (o : Int) (j : Nat) : Int := (o + j) % R.ringSize

/-- The message after `j` hops. -/
def messageAfter (p : HopPayload) (j : Nat) : HopPayload :=
  { End := p.End, Current := p.Current + j }

/-- The call made by the node `j` hops into the traversal of `p` from `o`: a
forwarding request while hops remain, the completion report after the last. -/
def chainCall (R : Ring) (o : Int) (p : HopPayload) (j : Nat) : OutReq :=
  if j < hopsLeft p then hopCall R (nodeAfter R o j) (messageAfter p j)
  else reportCall R (nodeAfter R o j) (messageAfter p j)

/-- Calls of an undisturbed traversal with `k` hops left, in order. -/
def chainEvents (R : Ring) : Nat → Int → HopPayload → List Event
  | 0, o, p => [⟨o, reportCall R o p⟩]
  | k + 1, o, p =>
    ⟨o, hopCall R o p⟩ :: chainEvents R k ((o + 1) % R.ringSize) ⟨p.End, p.Current + 1⟩

/-- What a handler writes once its call has returned: the proxied response, or
`502` with the error text after the given prefix. -/
def afterCall (what : String) (res : Except String Response) : Response :=
  match res with
  | .ok resp => proxyResponse resp
  | .error err => httpError (what ++ err) 502

/-- A reply the client hands to the handler as it came: neither a redirect it
follows nor a gzip body it decodes. -/
def Response.Untouched (resp : Response) : Prop :=
  followsRedirect resp = false ∧ gzipEncoded resp = false

/-! ## Concrete rings -/

/-- Ring of four magnets with the default names. -/
def demoRing : Ring :=
  { ringSize := 4
    baseName := "magnet"
    serviceDNS := "magnets"
    experimentURL := "http://experiment-cake:8080/observe" }

/-- The same ring started without `EXPERIMENT_URL`. -/
def unconfiguredRing : Ring :=
  { ringSize := 4
    baseName := "magnet"
    serviceDNS := "magnets"
    experimentURL := "" }

/-- Name resolution for a ring: the collector URL names the collector, the hop
URL of ordinal `i` names magnet `i`. -/
def ringResolve (R : Ring) (url : String) : Option Endpoint :=
  if url = R.experimentURL then some .collector
  else
    match (List.range R.ringSize.toNat).find?
        (fun i => hopURL R.baseName (i : Int) R.serviceDNS = url) with
    | some i => some (.magnet (i : Int))
    | none => none

/-- A collector that acknowledges every report with `200` and names the sender. -/
def demoCollector (e : ExperimentPayload) : Response :=
  { status := 200
    header := [("Content-Type", ["application/json"])]
    body := "observed ".data ++ e.MagnetName.data }

/-- A world around `demoRing` in which every call is delivered. -/
def demoWorld : World :=
  { newRequestOk := fun _ => true
    resolve := ringResolve demoRing
    fault := fun _ => none
    collector := demoCollector
    gunzip := fun b => b
    redirect := fun _ _ => .error "no such host" }

/-- A world around `demoRing` whose collector answers every report with a `302`
to another address, where the client finds a `200`. -/
def redirectingWorld : World :=
  { newRequestOk := fun _ => true
    resolve := ringResolve demoRing
    fault := fun _ => none
    collector := fun _ =>
      { status := 302
        header := [("Location", ["http://elsewhere:8080/final"])]
        body := [] }
    gunzip := fun b => b
    redirect := fun _ _ => .ok { status := 200, header := [], body := "final".data } }

/-- A world around `demoRing` whose collector answers every report with a gzip
body, which decodes to `plain`. -/
def gzipWorld : World :=
  { newRequestOk := fun _ => true
    resolve := ringResolve demoRing
    fault := fun _ => none
    collector := fun _ =>
      { status := 200
        header := [("Content-Encoding", ["gzip"]), ("Content-Type", ["application/json"])]
        body := "zipped".data }
    gunzip := fun _ => "plain".data
    redirect := fun _ _ => .error "no such host" }

/-- A world around `demoRing` in which the collector never answers in time. -/
def collectorDownWorld : World :=
  { newRequestOk := fun _ => true
    resolve := ringResolve demoRing
    fault := fun req =>
      if req.url = demoRing.experimentURL then some "context deadline exceeded" else none
    collector := demoCollector
    gunzip := fun b => b
    redirect := fun _ _ => .error "no such host" }

/-- A client whose every call times out. -/
def deadNet : Net :=
  { newRequestOk := fun _ => true
    Do := fun _ => .error "context deadline exceeded" }

/-- A client that answers every call with the given response. -/
def echoNet (resp : Response) : Net :=
  { newRequestOk := fun _ => true
    Do := fun _ => .ok resp }

/-! # Theorems -/

set_option maxRecDepth 200000

/-! ## Machine integers and ordinals -/

theorem wrapInt_of_inRange (x : Int) (h : InRange x) : wrapInt x = x := by
  unfold InRange minInt maxInt at h
  unfold wrapInt
  omega

theorem inRange_succ (c e : Int) (hc : InRange c) (he : InRange e) (hlt : c < e) :
    InRange (c + 1) := by
  unfold InRange minInt maxInt at *
  omega

theorem nextID_eq (o n : Int) (ho : 0 ≤ o) (hon : o < n) (hn : n ≤ maxInt) :
    Int.tmod (wrapInt (o + 1)) n = (o + 1) % n := by
  have hr : InRange (o + 1) := by
    unfold InRange minInt maxInt at *
    omega
  rw [wrapInt_of_inRange _ hr]
  exact Int.tmod_eq_emod (by omega) (by omega)

theorem hopsLeft_zero (p : HopPayload) (h : hopsLeft p = 0) : p.End ≤ p.Current := by
  unfold hopsLeft at h
  omega

theorem hopsLeft_succ (p : HopPayload) (k : Nat) (h : hopsLeft p = k + 1) :
    p.Current < p.End ∧ hopsLeft ⟨p.End, p.Current + 1⟩ = k := by
  unfold hopsLeft at *
  simp only
  omega

theorem nodeAfter_zero (R : Ring) (o : Int) (ho : 0 ≤ o) (hoN : o < R.ringSize) :
    nodeAfter R o 0 = o := by
  simp [nodeAfter, Int.emod_eq_of_lt ho hoN]

theorem messageAfter_zero (p : HopPayload) : messageAfter p 0 = p := by
  cases p
  simp [messageAfter]

theorem nodeAfter_succ (R : Ring) (o : Int) (j : Nat) :
    nodeAfter R ((o + 1) % R.ringSize) j = nodeAfter R o (j + 1) := by
  simp only [nodeAfter, Int.emod_add_emod]
  congr 1
  push_cast
  omega

theorem messageAfter_succ (p : HopPayload) (j : Nat) :
    messageAfter ⟨p.End, p.Current + 1⟩ j = messageAfter p (j + 1) := by
  simp only [messageAfter, HopPayload.mk.injEq, true_and]
  push_cast
  omega

theorem nodeAfter_add (R : Ring) (o : Int) (i j : Nat) :
    nodeAfter R (nodeAfter R o i) j = nodeAfter R o (i + j) := by
  simp only [nodeAfter, Int.emod_add_emod]
  congr 1
  push_cast
  omega

theorem messageAfter_add (p : HopPayload) (i j : Nat) :
    messageAfter (messageAfter p i) j = messageAfter p (i + j) := by
  simp only [messageAfter, HopPayload.mk.injEq, true_and]
  push_cast
  omega

theorem nodeAfter_range (R : Ring) (o : Int) (j : Nat) (hN : 0 < R.ringSize) :
    0 ≤ nodeAfter R o j ∧ nodeAfter R o j < R.ringSize :=
  ⟨Int.emod_nonneg _ (by omega), Int.emod_lt_of_pos _ hN⟩

theorem hopCall_after (R : Ring) (o : Int) (p : HopPayload) (j : Nat) :
    hopCall R (nodeAfter R o j) (messageAfter p j) =
      ⟨hopURL R.baseName (nodeAfter R o (j + 1)) R.serviceDNS,
        .hop { End := p.End, Current := p.Current + j + 1 }⟩ := by
  simp only [hopCall, nodeAfter, messageAfter, Int.emod_add_emod]
  congr 3
  push_cast
  omega

/-! ## Decimal rendering and parsing -/

theorem formatInt_zero : String.mk (formatInt 0) = "0" := by decide

theorem hopURL_zero (b d : String) :
    hopURL b 0 d = "http://" ++ b ++ "-0." ++ d ++ ":8080/hop" := by
  unfold hopURL
  rw [formatInt_zero]
  apply String.ext
  simp [String.data_append]

theorem digitVal_digitChar (d : Nat) (h : d < 10) : digitVal (digitChar d) = some d := by
  interval_cases d <;> decide

theorem digitChar_ne_dash (d : Nat) (h : d < 10) : digitChar d ≠ '-' ∧ digitChar d ≠ '+' := by
  interval_cases d <;> decide

theorem natDigits_mem (fuel n : Nat) (c : Char) (hc : c ∈ natDigits fuel n) :
    ∃ d, d < 10 ∧ c = digitChar d := by
  induction fuel generalizing n with
  | zero => simp [natDigits] at hc
  | succ fuel ih =>
    unfold natDigits at hc
    split at hc
    · rename_i hlt
      simp only [List.mem_singleton] at hc
      exact ⟨n, hlt, hc⟩
    · simp only [List.mem_append, List.mem_singleton] at hc
      rcases hc with hc | hc
      · exact ih _ hc
      · exact ⟨n % 10, Nat.mod_lt _ (by decide), hc⟩

theorem natDigits_ne_nil (fuel n : Nat) : natDigits (fuel + 1) n ≠ [] := by
  unfold natDigits
  split <;> simp

theorem parseDigits_append (a b : List Char) (acc : Nat) :
    parseDigits (a ++ b) acc = (parseDigits a acc).bind (parseDigits b) := by
  induction a generalizing acc with
  | nil => simp [parseDigits]
  | cons c cs ih =>
    simp only [List.cons_append, parseDigits]
    cases digitVal c with
    | none => simp
    | some d => simp [ih]

theorem parseDigits_natDigits (fuel n : Nat) (h : n < fuel) :
    parseDigits (natDigits fuel n) 0 = some n := by
  induction fuel generalizing n with
  | zero => omega
  | succ fuel ih =>
    unfold natDigits
    split
    · rename_i hlt
      simp [parseDigits, digitVal_digitChar n hlt]
    · rename_i hge
      have h10 : n / 10 < fuel := by omega
      rw [parseDigits_append, ih _ h10]
      simp only [Option.bind, parseDigits, digitVal_digitChar _ (Nat.mod_lt n (by decide : 10 > 0))]
      congr 1
      omega

theorem Split_ne_nil (a : List Char) : Split a ≠ [] := by
  cases a with
  | nil => simp [Split]
  | cons c cs =>
    unfold Split
    split
    · simp
    · split <;> simp

theorem Split_append_dash (a b : List Char) :
    Split (a ++ '-' :: b) = Split a ++ Split b := by
  induction a with
  | nil => simp [Split]
  | cons c cs ih =>
    by_cases hc : c = '-'
    · simp [Split, hc, ih]
    · have hs : Split (c :: (cs ++ '-' :: b))
          = match Split (cs ++ '-' :: b) with
            | [] => [[c]]
            | p :: ps => (c :: p) :: ps := by
        simp [Split, hc]
      have hs2 : Split (c :: cs)
          = match Split cs with
            | [] => [[c]]
            | p :: ps => (c :: p) :: ps := by
        simp [Split, hc]
      rw [List.cons_append, hs, hs2, ih]
      have hne := Split_ne_nil cs
      cases hq : Split cs with
      | nil => exact absurd hq hne
      | cons q qs => simp

theorem Split_no_dash (a : List Char) (h : '-' ∉ a) : Split a = [a] := by
  induction a with
  | nil => rfl
  | cons c cs ih =>
    simp only [List.mem_cons, not_or] at h
    have hc : ¬ c = '-' := fun e => h.1 e.symm
    simp [Split, hc, ih h.2]

theorem Atoi_formatNat (n : Nat) (h : (n : Int) ≤ maxInt) : Atoi (formatNat n) = .ok (n : Int) := by
  have hmem := natDigits_mem (n + 1) n
  have hne := natDigits_ne_nil n n
  have hp := parseDigits_natDigits (n + 1) n (by omega)
  unfold formatNat
  cases hd : natDigits (n + 1) n with
  | nil => exact absurd hd hne
  | cons c cs =>
    rw [hd] at hp
    obtain ⟨d, hd10, hcd⟩ := hmem c (by simp [hd])
    have hs := digitChar_ne_dash d hd10
    rw [← hcd] at hs
    have hnot : ¬ maxInt < (n : Int) := by omega
    simp [Atoi, hs.1, hs.2, parseMagnitude, hp, hnot]

/-! ## Header copying -/

theorem Header.values_of_not_mem (h : Header) (k : String) (hk : k ∉ Header.keys h) :
    Header.Values h k = [] := by
  induction h with
  | nil => rfl
  | cons kv rest ih =>
    obtain ⟨k', vs⟩ := kv
    simp only [Header.keys, List.map_cons, List.mem_cons, not_or] at hk
    have hne : ¬ k' = k := fun h => hk.1 h.symm
    simp only [Header.Values, hne, if_false]
    exact ih hk.2

theorem Header.keys_Add (h : Header) (k v : String) :
    Header.keys (Header.Add h k v) = if k ∈ Header.keys h then Header.keys h else Header.keys h ++ [k] := by
  induction h with
  | nil => simp [Header.Add, Header.keys]
  | cons kv rest ih =>
    obtain ⟨k', vs⟩ := kv
    by_cases hk : k' = k
    · subst hk
      simp [Header.Add, Header.keys]
    · have hk2 : ¬ k = k' := fun h => hk h.symm
      simp only [Header.keys] at ih
      simp only [Header.Add, hk, if_false, Header.keys, List.map_cons, List.mem_cons, hk2, false_or, ih]
      split <;> simp

theorem Header.nodup_Add (h : Header) (k v : String) (hn : (Header.keys h).Nodup) :
    (Header.keys (Header.Add h k v)).Nodup := by
  rw [Header.keys_Add]
  split
  · exact hn
  · rename_i hk
    exact List.Nodup.append hn (List.nodup_singleton k) (by simpa using hk)

theorem Header.values_Add (h : Header) (k' v k : String) (hn : (Header.keys h).Nodup) :
    Header.Values (Header.Add h k' v) k = Header.Values h k ++ (if k' = k then [v] else []) := by
  induction h with
  | nil => by_cases hk : k' = k <;> simp [Header.Add, Header.Values, hk]
  | cons kv rest ih =>
    obtain ⟨k0, vs⟩ := kv
    simp only [Header.keys, List.map_cons, List.nodup_cons] at hn
    by_cases h0 : k0 = k'
    · subst h0
      by_cases hk : k0 = k
      · subst hk
        have := Header.values_of_not_mem rest k0 hn.1
        simp [Header.Add, Header.Values, this]
      · simp [Header.Add, Header.Values, hk]
    · have ih2 := ih hn.2
      by_cases hk : k0 = k
      · subst hk
        simp [Header.Add, Header.Values, h0, ih2]
      · simp [Header.Add, Header.Values, h0, hk, ih2]

theorem copyValues_spec (k' : String) (vs : List String) (w : Header) (k : String)
    (hn : (Header.keys w).Nodup) :
    (Header.keys (vs.foldl (fun w v => Header.Add w k' v) w)).Nodup ∧
    Header.Values (vs.foldl (fun w v => Header.Add w k' v) w) k
      = Header.Values w k ++ (if k' = k then vs else []) := by
  induction vs generalizing w with
  | nil => simp [hn]
  | cons v vs ih =>
    have h1 := Header.nodup_Add w k' v hn
    have h2 := ih (Header.Add w k' v) h1
    refine ⟨h2.1, ?_⟩
    simp only [List.foldl_cons]
    rw [h2.2, Header.values_Add w k' v k hn]
    by_cases hk : k' = k <;> simp [hk]

theorem copyHeader_spec (src w : Header) (k : String) (hn : (Header.keys w).Nodup) :
    (Header.keys (copyHeader src w)).Nodup ∧
    Header.Values (copyHeader src w) k = Header.Values w k ++ Header.Values src k := by
  induction src generalizing w with
  | nil => simp [copyHeader, Header.Values, hn]
  | cons kv rest ih =>
    obtain ⟨k', vs⟩ := kv
    have h1 := copyValues_spec k' vs w k hn
    have h2 := ih (vs.foldl (fun w v => Header.Add w k' v) w) h1.1
    simp only [copyHeader, List.foldl_cons] at h2 ⊢
    refine ⟨h2.1, ?_⟩
    rw [h2.2, h1.2]
    by_cases hk : k' = k <;> simp [Header.Values, hk]

theorem proxyResponse_same (resp : Response) : Response.Same (proxyResponse resp) resp := by
  refine ⟨rfl, rfl, fun k => ?_⟩
  have := (copyHeader_spec resp.header [] k (by simp [Header.keys])).2
  simpa [proxyResponse, Header.Values] using this

theorem Response.Same.trans {a b c : Response} (h1 : Response.Same a b) (h2 : Response.Same b c) :
    Response.Same a c :=
  ⟨h1.1.trans h2.1, h1.2.1.trans h2.2.1, fun k => (h1.2.2 k).trans (h2.2.2 k)⟩

theorem hopHandler_proxies (cfg : Config) (net : Net) (body : Option HopPayload)
    (req : OutReq) (resp : Response)
    (hCall : (hopHandler cfg net body).calls = [req]) (hDo : net.Do req = .ok resp) :
    (hopHandler cfg net body).outcome = .wrote (proxyResponse resp) := by
  cases body with
  | none => simp [hopHandler] at hCall
  | some q =>
    by_cases h1 : q.End < 0
    · simp [hopHandler, h1] at hCall
    by_cases h2 : q.End ≤ q.Current
    · by_cases h3 : cfg.experimentURL = ""
      · simp [hopHandler, h1, h2, h3] at hCall
      cases h4 : net.newRequestOk cfg.experimentURL with
      | false => simp [hopHandler, h1, h2, h3, h4] at hCall
      | true =>
        cases h5 : net.Do ⟨cfg.experimentURL, .report ⟨q.End, q.Current, cfg.myID,
            magnetName cfg.baseName cfg.myID⟩⟩ with
        | error err =>
          simp [hopHandler, h1, h2, h3, h4, h5] at hCall
          subst hCall
          rw [h5] at hDo
          cases hDo
        | ok r =>
          simp [hopHandler, h1, h2, h3, h4, h5] at hCall
          subst hCall
          rw [h5] at hDo
          cases hDo
          simp [hopHandler, h1, h2, h3, h4, h5]
    · by_cases h3 : cfg.ringSize = 0
      · simp [hopHandler, h1, h2, h3] at hCall
      cases h4 : net.newRequestOk (hopURL cfg.baseName
          (Int.tmod (wrapInt (cfg.myID + 1)) cfg.ringSize) cfg.serviceDNS) with
      | false => simp [hopHandler, h1, h2, h3, h4] at hCall
      | true =>
        cases h5 : net.Do ⟨hopURL cfg.baseName
            (Int.tmod (wrapInt (cfg.myID + 1)) cfg.ringSize) cfg.serviceDNS,
            .hop ⟨q.End, wrapInt (q.Current + 1)⟩⟩ with
        | error err =>
          simp [hopHandler, h1, h2, h3, h4, h5] at hCall
          subst hCall
          rw [h5] at hDo
          cases hDo
        | ok r =>
          simp [hopHandler, h1, h2, h3, h4, h5] at hCall
          subst hCall
          rw [h5] at hDo
          cases hDo
          simp [hopHandler, h1, h2, h3, h4, h5]

/-! ## One node inside the ring -/

theorem received_untouched (W : World) (req : OutReq) (raw : Response)
    (h : raw.Untouched) : received W req raw = .ok raw := by
  simp [received, h.1, h.2]

theorem untouched_of_same {a b : Response} (hs : a.Same b) (hb : b.Untouched) :
    a.Untouched := by
  obtain ⟨h1, _, h3⟩ := hs
  unfold Response.Untouched followsRedirect gzipEncoded Header.Get at *
  simp only [h1, h3]
  exact hb

theorem received_status_502 (W : World) (req : OutReq) (raw : Response)
    (h : raw.status = 502) :
    ∃ resp, received W req raw = .ok resp ∧ resp.status = 502 := by
  unfold received
  by_cases hg : gzipEncoded raw = true
  · simp [hg, followsRedirect, h]
  · simp [hg, followsRedirect, h]

theorem deliver_fault (R : Ring) (W : World)
    (next : Int → Option HopPayload → Option (Outcome × List Event)) (req : OutReq)
    (err : String) (hf : W.fault req = some err) :
    deliver R W next req = some (.error err, []) := by
  simp [deliver, hf]

theorem deliver_collector (R : Ring) (W : World)
    (next : Int → Option HopPayload → Option (Outcome × List Event)) (req : OutReq)
    (hf : W.fault req = none) (hr : W.resolve req.url = some .collector) :
    deliver R W next req = some (received W req (W.collector req.body.asReport), []) := by
  simp [deliver, hf, hr]

theorem deliver_magnet (R : Ring) (W : World)
    (next : Int → Option HopPayload → Option (Outcome × List Event)) (req : OutReq) (i : Int)
    (hf : W.fault req = none) (hr : W.resolve req.url = some (.magnet i))
    (h0 : 0 ≤ i) (hN : i < R.ringSize) :
    deliver R W next req =
      match next i (some req.body.asHop) with
      | none => none
      | some (.wrote r, t) => some (received W req r, t)
      | some (.panicked _, t) => some (.error "EOF", t) := by
  simp [deliver, hf, hr, h0, hN]

theorem ringRun_report_step (R : Ring) (W : World) (hW : R.Wired W) (fuel : Nat) (o : Int)
    (p : HopPayload) (hEnd : 0 ≤ p.End) (hCur : p.End ≤ p.Current)
    (res : Except String Response) (t : List Event)
    (hd : deliver R W (ringRun R W fuel) (reportCall R o p) = some (res, t)) :
    ringRun R W (fuel + 1) o (some p) =
      some (.wrote (afterCall "experiment request failed: " res), ⟨o, reportCall R o p⟩ :: t) := by
  have h1 : ¬ p.End < 0 := by omega
  have hc : reportCall R o p = ⟨R.experimentURL, .report ⟨p.End, p.Current, o,
      R.baseName ++ "-" ++ String.mk (formatInt o)⟩⟩ := rfl
  rw [hc] at hd
  cases res <;>
    simp [ringRun, hopHandler, Ring.node, h1, hCur, hW.url_set, hW.collector_ok, magnetName,
      hd, hc, afterCall]

theorem ringRun_hop_step (R : Ring) (W : World) (hW : R.Wired W) (fuel : Nat) (o : Int)
    (p : HopPayload) (ho : 0 ≤ o) (hoN : o < R.ringSize)
    (hEnd : InRange p.End) (hCur : p.Current < p.End) (hIn : InRange p.Current)
    (h0 : 0 ≤ p.End) :
    ringRun R W (fuel + 1) o (some p) =
      match deliver R W (ringRun R W fuel) (hopCall R o p) with
      | none => none
      | some (res, t) =>
        some (.wrote (afterCall "next magnet request failed: " res), ⟨o, hopCall R o p⟩ :: t) := by
  have h1 : ¬ p.End < 0 := by omega
  have h2 : ¬ p.End ≤ p.Current := by omega
  have h3 : R.ringSize ≠ 0 := by have := hW.size_pos; omega
  have hn := nextID_eq o R.ringSize ho hoN hW.size_le
  have hw := wrapInt_of_inRange _ (inRange_succ _ _ hIn hEnd hCur)
  have hlo : 0 ≤ (o + 1) % R.ringSize := Int.emod_nonneg _ h3
  have hhi : (o + 1) % R.ringSize < R.ringSize := Int.emod_lt_of_pos _ hW.size_pos
  have hc : hopCall R o p = ⟨hopURL R.baseName ((o + 1) % R.ringSize) R.serviceDNS,
      .hop ⟨p.End, p.Current + 1⟩⟩ := rfl
  cases hd : deliver R W (ringRun R W fuel) (hopCall R o p) with
  | none =>
    rw [hc] at hd
    simp [ringRun, hopHandler, Ring.node, h1, h2, h3, hn, hw, hW.hop_ok _ hlo hhi, hd]
  | some x =>
    obtain ⟨res, t⟩ := x
    rw [hc] at hd
    cases res <;>
      simp [ringRun, hopHandler, Ring.node, h1, h2, h3, hn, hw, hW.hop_ok _ hlo hhi, hd, hc,
        afterCall]

theorem ringRun_terminal (R : Ring) (W : World) (hW : R.Wired W) (fuel : Nat) (o : Int)
    (p : HopPayload) (hEnd : 0 ≤ p.End) (hCur : p.End ≤ p.Current) :
    ringRun R W (fuel + 1) o (some p) =
      some (.wrote (afterCall "experiment request failed: "
          (match W.fault (reportCall R o p) with
            | some err => .error err
            | none =>
              received W (reportCall R o p) (W.collector (reportCall R o p).body.asReport))),
        [⟨o, reportCall R o p⟩]) := by
  cases hf : W.fault (reportCall R o p) with
  | some err =>
    exact ringRun_report_step R W hW fuel o p hEnd hCur _ _ (deliver_fault R W _ _ err hf)
  | none =>
    exact ringRun_report_step R W hW fuel o p hEnd hCur _ _
      (deliver_collector R W _ _ hf hW.collector_resolves)

theorem ringRun_forward (R : Ring) (W : World) (hW : R.Wired W) (fuel : Nat) (o : Int)
    (p : HopPayload) (ho : 0 ≤ o) (hoN : o < R.ringSize)
    (hEnd : InRange p.End) (hCur : p.Current < p.End) (hIn : InRange p.Current)
    (h0 : 0 ≤ p.End) :
    ringRun R W (fuel + 1) o (some p) =
      match W.fault (hopCall R o p) with
      | some err =>
        some (.wrote (afterCall "next magnet request failed: " (.error err)),
          [⟨o, hopCall R o p⟩])
      | none =>
        match ringRun R W fuel ((o + 1) % R.ringSize) (some ⟨p.End, p.Current + 1⟩) with
        | none => none
        | some (.wrote r, t) =>
          some (.wrote (afterCall "next magnet request failed: "
            (received W (hopCall R o p) r)), ⟨o, hopCall R o p⟩ :: t)
        | some (.panicked _, t) =>
          some (.wrote (afterCall "next magnet request failed: " (.error "EOF")),
            ⟨o, hopCall R o p⟩ :: t) := by
  have h3 : R.ringSize ≠ 0 := by have := hW.size_pos; omega
  have hlo : 0 ≤ (o + 1) % R.ringSize := Int.emod_nonneg _ h3
  have hhi : (o + 1) % R.ringSize < R.ringSize := Int.emod_lt_of_pos _ hW.size_pos
  rw [ringRun_hop_step R W hW fuel o p ho hoN hEnd hCur hIn h0]
  cases hf : W.fault (hopCall R o p) with
  | some err => rw [deliver_fault R W _ _ err hf]
  | none =>
    rw [deliver_magnet R W _ (hopCall R o p) _ hf (hW.hop_resolves _ hlo hhi) hlo hhi]
    have hb : (hopCall R o p).body.asHop = ⟨p.End, p.Current + 1⟩ := rfl
    rw [hb]
    cases hr : ringRun R W fuel ((o + 1) % R.ringSize) (some ⟨p.End, p.Current + 1⟩) with
    | none => rfl
    | some x =>
      obtain ⟨out, t⟩ := x
      cases out <;> rfl

/-! ## Whole traversals -/

theorem ringRun_trace (R : Ring) (W : World) (hW : R.Wired W) (hRel : W.Reliable) :
    ∀ (k fuel : Nat) (o : Int) (p : HopPayload), 0 ≤ o → o < R.ringSize → 0 ≤ p.End →
      InRange p.End → InRange p.Current → hopsLeft p = k → k < fuel →
      ∃ r, ringRun R W fuel o (some p) = some (.wrote r, chainEvents R k o p) := by
  intro k
  induction k with
  | zero =>
    intro fuel o p _ _ hEnd _ _ hk hfuel
    obtain ⟨f, rfl⟩ : ∃ f, fuel = f + 1 := ⟨fuel - 1, by omega⟩
    exact ⟨_, ringRun_terminal R W hW f o p hEnd (hopsLeft_zero p hk)⟩
  | succ k ih =>
    intro fuel o p ho hoN hEnd hInE hInC hk hfuel
    obtain ⟨f, rfl⟩ : ∃ f, fuel = f + 1 := ⟨fuel - 1, by omega⟩
    obtain ⟨hlt, hk2⟩ := hopsLeft_succ p k hk
    have h3 : R.ringSize ≠ 0 := by have := hW.size_pos; omega
    have hlo : 0 ≤ (o + 1) % R.ringSize := Int.emod_nonneg _ h3
    have hhi : (o + 1) % R.ringSize < R.ringSize := Int.emod_lt_of_pos _ hW.size_pos
    obtain ⟨r, hr⟩ := ih f ((o + 1) % R.ringSize) ⟨p.End, p.Current + 1⟩ hlo hhi hEnd hInE
      (inRange_succ _ _ hInC hInE hlt) hk2 (by omega)
    rw [ringRun_forward R W hW f o p ho hoN hInE hlt hInC hEnd, hRel]
    simp only [hr]
    exact ⟨_, rfl⟩

theorem ringRun_verbatim (R : Ring) (W : World) (hW : R.Wired W) (hRel : W.Reliable) :
    ∀ (k fuel : Nat) (o : Int) (p : HopPayload), 0 ≤ o → o < R.ringSize → 0 ≤ p.End →
      InRange p.End → InRange p.Current → hopsLeft p = k → k < fuel →
      (W.collector (reportCall R (nodeAfter R o k) (messageAfter p k)).body.asReport).Untouched →
      ∃ r, ringRun R W fuel o (some p) = some (.wrote r, chainEvents R k o p) ∧
        r.Same (W.collector (reportCall R (nodeAfter R o k) (messageAfter p k)).body.asReport) := by
  intro k
  induction k with
  | zero =>
    intro fuel o p ho hoN hEnd _ _ hk hfuel hU
    obtain ⟨f, rfl⟩ : ∃ f, fuel = f + 1 := ⟨fuel - 1, by omega⟩
    rw [nodeAfter_zero R o ho hoN, messageAfter_zero] at hU ⊢
    rw [ringRun_terminal R W hW f o p hEnd (hopsLeft_zero p hk), hRel]
    simp only [received_untouched W _ _ hU]
    exact ⟨_, rfl, proxyResponse_same _⟩
  | succ k ih =>
    intro fuel o p ho hoN hEnd hInE hInC hk hfuel hU
    obtain ⟨f, rfl⟩ : ∃ f, fuel = f + 1 := ⟨fuel - 1, by omega⟩
    obtain ⟨hlt, hk2⟩ := hopsLeft_succ p k hk
    have h3 : R.ringSize ≠ 0 := by have := hW.size_pos; omega
    have hlo : 0 ≤ (o + 1) % R.ringSize := Int.emod_nonneg _ h3
    have hhi : (o + 1) % R.ringSize < R.ringSize := Int.emod_lt_of_pos _ hW.size_pos
    rw [← nodeAfter_succ, ← messageAfter_succ] at hU ⊢
    obtain ⟨r, hr, hsame⟩ := ih f ((o + 1) % R.ringSize) ⟨p.End, p.Current + 1⟩ hlo hhi hEnd
      hInE (inRange_succ _ _ hInC hInE hlt) hk2 (by omega) hU
    rw [ringRun_forward R W hW f o p ho hoN hInE hlt hInC hEnd, hRel]
    simp only [hr, received_untouched W _ _ (untouched_of_same hsame hU)]
    exact ⟨_, rfl, (proxyResponse_same _).trans hsame⟩

theorem chainEvents_eq (R : Ring) (hN : 0 < R.ringSize) :
    ∀ (k : Nat) (o : Int) (p : HopPayload), 0 ≤ o → o < R.ringSize →
      chainEvents R k o p =
        (List.range k).map
            (fun j => ⟨nodeAfter R o j, hopCall R (nodeAfter R o j) (messageAfter p j)⟩)
          ++ [⟨nodeAfter R o k, reportCall R (nodeAfter R o k) (messageAfter p k)⟩] := by
  intro k
  induction k with
  | zero =>
    intro o p ho hoN
    have : o % R.ringSize = o := Int.emod_eq_of_lt ho hoN
    simp [chainEvents, nodeAfter, messageAfter, this]
  | succ k ih =>
    intro o p ho hoN
    have h3 : R.ringSize ≠ 0 := by omega
    have hlo : 0 ≤ (o + 1) % R.ringSize := Int.emod_nonneg _ h3
    have hhi : (o + 1) % R.ringSize < R.ringSize := Int.emod_lt_of_pos _ hN
    have ho' : o % R.ringSize = o := Int.emod_eq_of_lt ho hoN
    have hshift : ∀ j : Nat, nodeAfter R ((o + 1) % R.ringSize) j = nodeAfter R o (j + 1) := by
      intro j
      simp only [nodeAfter, Int.emod_add_emod]
      congr 1
      push_cast
      omega
    have hmsg : ∀ j : Nat, messageAfter ⟨p.End, p.Current + 1⟩ j = messageAfter p (j + 1) := by
      intro j
      simp only [messageAfter, HopPayload.mk.injEq, true_and]
      push_cast
      omega
    rw [chainEvents, ih _ _ hlo hhi, List.range_succ_eq_map]
    simp only [hshift, hmsg, List.map_cons, List.map_map, List.cons_append]
    congr 1
    simp [nodeAfter, messageAfter, ho']

theorem traverse_reliable (R : Ring) (W : World) (o : Int) (p : HopPayload)
    (hW : R.Wired W) (hRel : W.Reliable) (ho : 0 ≤ o) (hoN : o < R.ringSize)
    (hEnd : 0 ≤ p.End) (hInE : InRange p.End) (hInC : InRange p.Current) :
    ∃ r, traverse R W o p =
      some (.wrote r,
        (List.range (hopsLeft p)).map
            (fun j => ⟨nodeAfter R o j, hopCall R (nodeAfter R o j) (messageAfter p j)⟩)
          ++ [⟨nodeAfter R o (hopsLeft p),
              reportCall R (nodeAfter R o (hopsLeft p)) (messageAfter p (hopsLeft p))⟩]) := by
  unfold traverse
  obtain ⟨r, hr⟩ :=
    ringRun_trace R W hW hRel (hopsLeft p) (hopsLeft p + 1) o p ho hoN hEnd hInE hInC rfl
      (by omega)
  rw [chainEvents_eq R hW.size_pos _ o p ho hoN] at hr
  exact ⟨r, hr⟩

theorem hopEvents_chain (R : Ring) (o : Int) (p : HopPayload) (n : Nat) (e : Event)
    (he : ∃ x, e.req.body = .report x) :
    hopEvents ((List.range n).map
        (fun j => (⟨nodeAfter R o j, hopCall R (nodeAfter R o j) (messageAfter p j)⟩ : Event))
      ++ [e])
      = (List.range n).map
        (fun j => (⟨nodeAfter R o j, hopCall R (nodeAfter R o j) (messageAfter p j)⟩ : Event)) := by
  obtain ⟨x, hx⟩ := he
  unfold hopEvents
  rw [List.filter_append]
  have h1 : ∀ l : List Nat, (l.map
      (fun j => (⟨nodeAfter R o j, hopCall R (nodeAfter R o j) (messageAfter p j)⟩ : Event))).filter
      (fun e => match e.req.body with | .hop _ => true | .report _ => false)
      = l.map (fun j => (⟨nodeAfter R o j, hopCall R (nodeAfter R o j) (messageAfter p j)⟩ : Event)) := by
    intro l
    induction l with
    | nil => rfl
    | cons a l ih => simp [List.filter_cons, hopCall, ih]
  rw [h1]
  simp [List.filter_cons, hx]

theorem reportEvents_chain (R : Ring) (o : Int) (p : HopPayload) (n : Nat) (e : Event)
    (he : ∃ x, e.req.body = .report x) :
    reportEvents ((List.range n).map
        (fun j => (⟨nodeAfter R o j, hopCall R (nodeAfter R o j) (messageAfter p j)⟩ : Event))
      ++ [e]) = [e] := by
  obtain ⟨x, hx⟩ := he
  unfold reportEvents
  rw [List.filter_append]
  have h1 : ∀ l : List Nat, (l.map
      (fun j => (⟨nodeAfter R o j, hopCall R (nodeAfter R o j) (messageAfter p j)⟩ : Event))).filter
      (fun e => match e.req.body with | .hop _ => false | .report _ => true) = [] := by
    intro l
    induction l with
    | nil => rfl
    | cons a l ih => simp [List.filter_cons, hopCall, ih]
  rw [h1]
  simp [List.filter_cons, hx]

theorem ringRun_hops_le (R : Ring) (W : World) (hW : R.Wired W) :
    ∀ (k fuel : Nat) (o : Int) (p : HopPayload), 0 ≤ o → o < R.ringSize → 0 ≤ p.End →
      InRange p.End → InRange p.Current → hopsLeft p = k → k < fuel →
      ∃ r tr, ringRun R W fuel o (some p) = some (.wrote r, tr) ∧
        (hopEvents tr).length ≤ k := by
  intro k
  induction k with
  | zero =>
    intro fuel o p _ _ hEnd _ _ hk hfuel
    obtain ⟨f, rfl⟩ : ∃ f, fuel = f + 1 := ⟨fuel - 1, by omega⟩
    rw [ringRun_terminal R W hW f o p hEnd (hopsLeft_zero p hk)]
    cases W.fault (reportCall R o p) with
    | some err => exact ⟨_, _, rfl, by simp [hopEvents, reportCall]⟩
    | none => exact ⟨_, _, rfl, by simp [hopEvents, reportCall]⟩
  | succ k ih =>
    intro fuel o p ho hoN hEnd hInE hInC hk hfuel
    obtain ⟨f, rfl⟩ : ∃ f, fuel = f + 1 := ⟨fuel - 1, by omega⟩
    obtain ⟨hlt, hk2⟩ := hopsLeft_succ p k hk
    have h3 : R.ringSize ≠ 0 := by have := hW.size_pos; omega
    have hlo : 0 ≤ (o + 1) % R.ringSize := Int.emod_nonneg _ h3
    have hhi : (o + 1) % R.ringSize < R.ringSize := Int.emod_lt_of_pos _ hW.size_pos
    rw [ringRun_forward R W hW f o p ho hoN hInE hlt hInC hEnd]
    cases W.fault (hopCall R o p) with
    | some err => exact ⟨_, _, rfl, by simp [hopEvents, hopCall]⟩
    | none =>
      obtain ⟨r, t, hrun, hlen⟩ := ih f ((o + 1) % R.ringSize) ⟨p.End, p.Current + 1⟩ hlo hhi
        hEnd hInE (inRange_succ _ _ hInC hInE hlt) hk2 (by omega)
      simp only [hrun]
      refine ⟨_, _, rfl, ?_⟩
      have : hopEvents (⟨o, hopCall R o p⟩ :: t) = ⟨o, hopCall R o p⟩ :: hopEvents t := by
        simp [hopEvents, hopCall]
      rw [this, List.length_cons]
      omega

theorem ringRun_fault_502 (R : Ring) (W : World) (hW : R.Wired W) :
    ∀ (k fuel : Nat) (o : Int) (p : HopPayload), 0 ≤ o → o < R.ringSize → 0 ≤ p.End →
      InRange p.End → InRange p.Current → hopsLeft p = k → k < fuel →
      (∃ e ∈ chainEvents R k o p, W.fault e.req ≠ none) →
      ∃ r tr, ringRun R W fuel o (some p) = some (.wrote r, tr) ∧ r.status = 502 := by
  intro k
  induction k with
  | zero =>
    intro fuel o p _ _ hEnd _ _ hk hfuel hex
    obtain ⟨f, rfl⟩ : ∃ f, fuel = f + 1 := ⟨fuel - 1, by omega⟩
    obtain ⟨e, he, hfault⟩ := hex
    simp only [chainEvents, List.mem_singleton] at he
    subst he
    rw [ringRun_terminal R W hW f o p hEnd (hopsLeft_zero p hk)]
    cases hf : W.fault (reportCall R o p) with
    | some err => exact ⟨_, _, rfl, rfl⟩
    | none => exact absurd hf hfault
  | succ k ih =>
    intro fuel o p ho hoN hEnd hInE hInC hk hfuel hex
    obtain ⟨f, rfl⟩ : ∃ f, fuel = f + 1 := ⟨fuel - 1, by omega⟩
    obtain ⟨hlt, hk2⟩ := hopsLeft_succ p k hk
    have h3 : R.ringSize ≠ 0 := by have := hW.size_pos; omega
    have hlo : 0 ≤ (o + 1) % R.ringSize := Int.emod_nonneg _ h3
    have hhi : (o + 1) % R.ringSize < R.ringSize := Int.emod_lt_of_pos _ hW.size_pos
    rw [ringRun_forward R W hW f o p ho hoN hInE hlt hInC hEnd]
    cases hf : W.fault (hopCall R o p) with
    | some err => exact ⟨_, _, rfl, rfl⟩
    | none =>
      obtain ⟨e, he, hfault⟩ := hex
      simp only [chainEvents, List.mem_cons] at he
      rcases he with he | he
      · subst he
        exact absurd hf hfault
      · obtain ⟨r, t, hrun, hst⟩ := ih f ((o + 1) % R.ringSize) ⟨p.End, p.Current + 1⟩ hlo hhi
          hEnd hInE (inRange_succ _ _ hInC hInE hlt) hk2 (by omega) ⟨e, he, hfault⟩
        obtain ⟨resp, hrec, hst2⟩ := received_status_502 W (hopCall R o p) r hst
        simp only [hrun, hrec]
        exact ⟨_, _, rfl, hst2⟩

theorem chainCall_mem (R : Ring) (o : Int) (p : HopPayload) (i j : Nat)
    (hN : 0 < R.ringSize) (hij : i ≤ j) (hj : j ≤ hopsLeft p) :
    ∃ e ∈ chainEvents R (hopsLeft p - i) (nodeAfter R o i) (messageAfter p i),
      e.req = chainCall R o p j := by
  obtain ⟨hlo, hhi⟩ := nodeAfter_range R o i hN
  rw [chainEvents_eq R hN _ _ _ hlo hhi]
  have hsum : i + (j - i) = j := by omega
  by_cases hlt : j < hopsLeft p
  · refine ⟨⟨nodeAfter R (nodeAfter R o i) (j - i),
      hopCall R (nodeAfter R (nodeAfter R o i) (j - i))
        (messageAfter (messageAfter p i) (j - i))⟩, ?_, ?_⟩
    · apply List.mem_append_left
      exact List.mem_map.mpr ⟨j - i, List.mem_range.mpr (by omega), rfl⟩
    · simp only [nodeAfter_add, messageAfter_add, hsum, chainCall, hlt, if_true]
  · have hje : j = hopsLeft p := by omega
    refine ⟨_, List.mem_append_right _ (List.mem_singleton.mpr rfl), ?_⟩
    have hsum2 : i + (hopsLeft p - i) = j := by omega
    simp only [nodeAfter_add, messageAfter_add, hsum2, chainCall, hlt, if_false]

/-! ## The concrete rings are wired -/

theorem demoRing_wired : demoRing.Wired demoWorld where
  size_pos := by decide
  size_le := by decide
  url_set := by decide
  collector_ok := rfl
  collector_resolves := by decide
  hop_ok := fun _ _ _ => rfl
  hop_resolves := by
    intro i h0 h4
    have h4' : i < 4 := h4
    interval_cases i <;> decide

theorem demoWorld_reliable : demoWorld.Reliable := fun _ => rfl

theorem demoRing_wired_redirecting : demoRing.Wired redirectingWorld where
  size_pos := demoRing_wired.size_pos
  size_le := demoRing_wired.size_le
  url_set := demoRing_wired.url_set
  collector_ok := rfl
  collector_resolves := demoRing_wired.collector_resolves
  hop_ok := fun _ _ _ => rfl
  hop_resolves := demoRing_wired.hop_resolves

theorem demoRing_wired_collectorDown : demoRing.Wired collectorDownWorld where
  size_pos := demoRing_wired.size_pos
  size_le := demoRing_wired.size_le
  url_set := demoRing_wired.url_set
  collector_ok := rfl
  collector_resolves := demoRing_wired.collector_resolves
  hop_ok := fun _ _ _ => rfl
  hop_resolves := demoRing_wired.hop_resolves

/-! ## Traversal length and the completion report -/

/-- C1: in a wired ring with a reliable transport, a message with `current < end`
submitted to node `o` makes exactly `end - current` forwarding hops, the `j`-th
sent by the node `j` hops from `o` to its successor and carrying the same `end`
and `current + j + 1`; after them exactly one completion report is sent, and
its `current` equals `end`. -/
theorem traverse_hops_then_one_report (R : Ring) (W : World) (o : Int) (p : HopPayload)
    (hW : R.Wired W) (hRel : W.Reliable) (ho : 0 ≤ o) (hoN : o < R.ringSize)
    (hEnd : 0 ≤ p.End) (hCur : p.Current < p.End)
    (hInE : InRange p.End) (hInC : InRange p.Current) :
    ∃ (r : Response) (n : Nat), (n : Int) = p.End - p.Current ∧
      traverse R W o p =
        some (.wrote r,
          (List.range n).map
              (fun j => ⟨nodeAfter R o j,
                ⟨hopURL R.baseName (nodeAfter R o (j + 1)) R.serviceDNS,
                  .hop { End := p.End, Current := p.Current + j + 1 }⟩⟩)
            ++ [⟨nodeAfter R o n,
                ⟨R.experimentURL,
                  .report
                    { End := p.End
                      Current := p.End
                      MagnetID := nodeAfter R o n
                      MagnetName :=
                        R.baseName ++ "-" ++ String.mk (formatInt (nodeAfter R o n)) }⟩⟩]) := by
  obtain ⟨r, hr⟩ := traverse_reliable R W o p hW hRel ho hoN hEnd hInE hInC
  refine ⟨r, hopsLeft p, ?_, ?_⟩
  · unfold hopsLeft; omega
  · rw [hr]
    have hlast : p.Current + (hopsLeft p : Int) = p.End := by unfold hopsLeft; omega
    simp only [hopCall_after]
    simp only [reportCall, messageAfter, hlast]

/-- Witness of C1 on the ring of four magnets: `{end:2, current:0}` at node 0. -/
theorem traverse_hops_then_one_report_demo :
    demoRing.Wired demoWorld ∧ demoWorld.Reliable ∧
    ∃ (r : Response) (n : Nat), (n : Int) = 2 - 0 ∧
      traverse demoRing demoWorld 0 ⟨2, 0⟩ =
        some (.wrote r,
          (List.range n).map
              (fun j => ⟨nodeAfter demoRing 0 j,
                ⟨hopURL demoRing.baseName (nodeAfter demoRing 0 (j + 1)) demoRing.serviceDNS,
                  .hop { End := 2, Current := 0 + j + 1 }⟩⟩)
            ++ [⟨nodeAfter demoRing 0 n,
                ⟨demoRing.experimentURL,
                  .report
                    { End := 2
                      Current := 2
                      MagnetID := nodeAfter demoRing 0 n
                      MagnetName :=
                        demoRing.baseName ++ "-"
                          ++ String.mk (formatInt (nodeAfter demoRing 0 n)) }⟩⟩]) :=
  ⟨demoRing_wired, demoWorld_reliable,
    traverse_hops_then_one_report demoRing demoWorld 0 ⟨2, 0⟩ demoRing_wired
      demoWorld_reliable (by decide) (by decide) (by decide) (by decide) (by decide)
      (by decide)⟩

/-! ## Validation and termination at one node -/

/-- C2: for every decoded body with `end < 0`, whatever `current` is, the
handler answers `400` and makes no outbound call, under every configuration and
every client. -/
theorem hopHandler_rejects_negative_end (cfg : Config) (net : Net) (p : HopPayload)
    (hEnd : p.End < 0) :
    (hopHandler cfg net (some p)).outcome.status = some 400 ∧
    (hopHandler cfg net (some p)).calls = [] := by
  simp [hopHandler, hEnd, Outcome.status, httpError]

/-- Witness of C2: `{end:-1, current:-7}` at node 0 of the ring of four. -/
theorem hopHandler_rejects_negative_end_demo :
    (-1 : Int) < 0 ∧
    (hopHandler (demoRing.node 0) (echoNet (demoCollector ⟨0, 0, 0, ""⟩))
        (some ⟨-1, -7⟩)).outcome.status = some 400 ∧
    (hopHandler (demoRing.node 0) (echoNet (demoCollector ⟨0, 0, 0, ""⟩))
        (some ⟨-1, -7⟩)).calls = [] :=
  ⟨by decide,
    hopHandler_rejects_negative_end (demoRing.node 0) (echoNet (demoCollector ⟨0, 0, 0, ""⟩))
      ⟨-1, -7⟩ (by decide)⟩

/-- C3: for a message with `end >= 0` and `current >= end`, a node with a
configured collector URL (for which a request can be built) makes exactly one
call, to the collector URL, with the report `{end, current, magnet_id = myID,
magnet_name = "<baseName>-<myID>"}` carrying the received `end` and `current`;
it makes no forwarding call. -/
theorem hopHandler_reports_to_collector (cfg : Config) (net : Net) (p : HopPayload)
    (hEnd : 0 ≤ p.End) (hCur : p.End ≤ p.Current) (hURL : cfg.experimentURL ≠ "")
    (hReq : net.newRequestOk cfg.experimentURL = true) :
    (hopHandler cfg net (some p)).calls =
      [⟨cfg.experimentURL,
        .report
          { End := p.End
            Current := p.Current
            MagnetID := cfg.myID
            MagnetName := cfg.baseName ++ "-" ++ String.mk (formatInt cfg.myID) }⟩] := by
  have h1 : ¬ p.End < 0 := by omega
  simp only [hopHandler, h1, if_false, ge_iff_le, hCur, if_true, hURL, hReq, magnetName]
  cases net.Do _ <;> simp

/-- Witness of C3: `{end:2, current:5}` at node 3 of the ring of four. -/
theorem hopHandler_reports_to_collector_demo :
    (0 : Int) ≤ 2 ∧ (2 : Int) ≤ 5 ∧ demoRing.experimentURL ≠ "" ∧
    (hopHandler (demoRing.node 3) deadNet (some ⟨2, 5⟩)).calls =
      [⟨"http://experiment-cake:8080/observe",
        .report { End := 2, Current := 5, MagnetID := 3, MagnetName := "magnet-3" }⟩] :=
  ⟨by decide, by decide, by decide,
    hopHandler_reports_to_collector (demoRing.node 3) deadNet ⟨2, 5⟩ (by decide) (by decide)
      (by decide) rfl⟩

/-! ## Proxying of the downstream response -/

/-- C4 fails as stated: with a transport that delivers every call, the collector
answers the report of `{end:1, current:0}` with a `302` that carries a
`Location`; the client of the last node follows it, and the original caller
receives the `200` found there, not the collector's response.  Likewise a
collector reply with `Content-Encoding: gzip` reaches the caller decoded and
without that header. -/
theorem client_transforms_collector_reply :
    demoRing.Wired redirectingWorld ∧ redirectingWorld.Reliable ∧
    (∀ rep, (redirectingWorld.collector rep).status = 302) ∧
    (traverse demoRing redirectingWorld 0 ⟨1, 0⟩).map
        (fun x => (x.1.status, (hopEvents x.2).length, (reportEvents x.2).length))
      = some (some 200, 1, 1) ∧
    gzipWorld.Reliable ∧
    (∀ rep, (gzipWorld.collector rep).body = "zipped".data ∧
      Header.Values (gzipWorld.collector rep).header "Content-Encoding" = ["gzip"]) ∧
    (traverse demoRing gzipWorld 0 ⟨1, 0⟩).map
        (fun x => x.1.response.map
          (fun r => (r.status, r.body, Header.Values r.header "Content-Encoding")))
      = some (some (200, "plain".data, [])) :=
  ⟨demoRing_wired_redirecting, fun _ => rfl, fun _ => rfl, by decide,
    fun _ => rfl, fun _ => ⟨rfl, rfl⟩, by decide⟩

/-- C4, amended: whenever the call a handler made returns a response, the
handler writes a response with the same status code, the same body and, for
every header key, the same values; and in a wired ring with a reliable
transport, when the collector's replies are ones the HTTP client hands over as
they came (no redirect it follows, no gzip body it decodes), the response
returned to the original caller agrees in the same way with the collector's
reply to the one report sent, whatever the number of hops. -/
theorem untouched_reply_returned_verbatim (R : Ring) (W : World) (o : Int)
    (p : HopPayload) (hW : R.Wired W) (hRel : W.Reliable) (ho : 0 ≤ o)
    (hoN : o < R.ringSize) (hEnd : 0 ≤ p.End) (hInE : InRange p.End)
    (hInC : InRange p.Current) (hU : ∀ rep, (W.collector rep).Untouched) :
    (∀ (cfg : Config) (net : Net) (body : Option HopPayload) (req : OutReq)
        (resp : Response),
        (hopHandler cfg net body).calls = [req] → net.Do req = .ok resp →
        ∃ r, (hopHandler cfg net body).outcome = .wrote r ∧ r.Same resp) ∧
    ∃ (r : Response) (hops : List Event) (sender : Int) (rep : ExperimentPayload),
      traverse R W o p
        = some (.wrote r, hops ++ [⟨sender, ⟨R.experimentURL, .report rep⟩⟩]) ∧
      hops.length = hopsLeft p ∧ r.Same (W.collector rep) := by
  constructor
  · intro cfg net body req resp hCall hDo
    exact ⟨_, hopHandler_proxies cfg net body req resp hCall hDo, proxyResponse_same resp⟩
  · obtain ⟨r, hr, hsame⟩ :=
      ringRun_verbatim R W hW hRel (hopsLeft p) (hopsLeft p + 1) o p ho hoN hEnd hInE hInC rfl
        (by omega) (hU _)
    rw [chainEvents_eq R hW.size_pos _ o p ho hoN] at hr
    exact ⟨r, _, _, _, hr, by simp, hsame⟩

/-- Witness of amended C4 on the ring of four magnets: `{end:5, current:0}` at
node 1, the collector answering `200` with a JSON body. -/
theorem untouched_reply_returned_verbatim_demo :
    demoRing.Wired demoWorld ∧ demoWorld.Reliable ∧
    (∀ rep, (demoWorld.collector rep).Untouched) ∧
    ∃ (r : Response) (hops : List Event) (sender : Int) (rep : ExperimentPayload),
      traverse demoRing demoWorld 1 ⟨5, 0⟩
        = some (.wrote r, hops ++ [⟨sender, ⟨demoRing.experimentURL, .report rep⟩⟩]) ∧
      hops.length = hopsLeft ⟨5, 0⟩ ∧ r.Same (demoWorld.collector rep) :=
  ⟨demoRing_wired, demoWorld_reliable, fun _ => ⟨rfl, rfl⟩,
    (untouched_reply_returned_verbatim demoRing demoWorld 1 ⟨5, 0⟩ demoRing_wired
      demoWorld_reliable (by decide) (by decide) (by decide) (by decide) (by decide)
      (fun _ => ⟨rfl, rfl⟩)).2⟩

/-! ## Downstream failures -/

/-- C5: for a valid message (`end >= 0`; collector URL configured when
`current >= end`; a non-zero ring size when `current < end`), when the client
builds the request and the call fails or times out, the handler answers `502`
and has made exactly one call. -/
theorem hopHandler_bad_gateway (cfg : Config) (net : Net) (p : HopPayload)
    (hEnd : 0 ≤ p.End)
    (hURL : p.End ≤ p.Current → cfg.experimentURL ≠ "")
    (hSize : p.Current < p.End → cfg.ringSize ≠ 0)
    (hReq : ∀ url, net.newRequestOk url = true)
    (hFail : ∀ req, ∃ err, net.Do req = .error err) :
    (hopHandler cfg net (some p)).outcome.status = some 502 ∧
    (hopHandler cfg net (some p)).calls.length = 1 := by
  have h1 : ¬ p.End < 0 := by omega
  by_cases hc : p.End ≤ p.Current
  · obtain ⟨err, he⟩ := hFail ⟨cfg.experimentURL,
      .report ⟨p.End, p.Current, cfg.myID, magnetName cfg.baseName cfg.myID⟩⟩
    simp [hopHandler, h1, hc, hURL hc, hReq, he, Outcome.status, httpError]
  · have hlt : p.Current < p.End := by omega
    obtain ⟨err, he⟩ := hFail ⟨hopURL cfg.baseName
      (Int.tmod (wrapInt (cfg.myID + 1)) cfg.ringSize) cfg.serviceDNS,
      .hop ⟨p.End, wrapInt (p.Current + 1)⟩⟩
    simp [hopHandler, h1, hc, hSize hlt, hReq, he, Outcome.status, httpError]

/-- Witness of C5: `{end:2, current:0}` at node 0 of four, every call timing out. -/
theorem hopHandler_bad_gateway_demo :
    (0 : Int) ≤ 2 ∧
    (hopHandler (demoRing.node 0) deadNet (some ⟨2, 0⟩)).outcome.status = some 502 ∧
    (hopHandler (demoRing.node 0) deadNet (some ⟨2, 0⟩)).calls.length = 1 :=
  ⟨by decide,
    hopHandler_bad_gateway (demoRing.node 0) deadNet ⟨2, 0⟩ (by decide) (fun _ => by decide)
      (fun _ => by decide) (fun _ => rfl) (fun _ => ⟨_, rfl⟩)⟩

/-- C6 fails as stated: in the ring started without a collector URL, the failure
at the last relay node (ordinal 2 answers `500`) reaches the original caller of
`{end:2, current:0}` at node 0 as status `500`, not `502`. -/
theorem configuration_failure_surfaces_as_500 :
    (traverse unconfiguredRing demoWorld 2 ⟨2, 2⟩).map (fun x => x.1.status)
      = some (some 500) ∧
    (traverse unconfiguredRing demoWorld 0 ⟨2, 0⟩).map (fun x => x.1.status)
      = some (some 500) :=
  ⟨by decide, by decide⟩

/-- C6, amended: in a wired ring, when a call of the chain fails in transport
(a forwarding call that does not reach the next member, or the collector call,
fails or times out), the node that made the call and every node upstream of it
answer `502`, and so does the node the original caller submitted to. -/
theorem transport_failure_surfaces_as_502 (R : Ring) (W : World) (o : Int) (p : HopPayload)
    (j : Nat) (hW : R.Wired W) (ho : 0 ≤ o) (hoN : o < R.ringSize)
    (hEnd : 0 ≤ p.End) (hInE : InRange p.End) (hInC : InRange p.Current)
    (hj : j ≤ hopsLeft p) (hFault : W.fault (chainCall R o p j) ≠ none) :
    (∀ i, i ≤ j →
      ∃ r tr, traverse R W (nodeAfter R o i) (messageAfter p i) = some (.wrote r, tr) ∧
        r.status = 502) ∧
    ∃ r tr, traverse R W o p = some (.wrote r, tr) ∧ r.status = 502 := by
  have hall : ∀ i, i ≤ j →
      ∃ r tr, traverse R W (nodeAfter R o i) (messageAfter p i) = some (.wrote r, tr) ∧
        r.status = 502 := by
    intro i hij
    obtain ⟨hlo, hhi⟩ := nodeAfter_range R o i hW.size_pos
    have hk : hopsLeft (messageAfter p i) = hopsLeft p - i := by
      unfold hopsLeft messageAfter
      simp only
      omega
    have hIn : InRange (messageAfter p i).Current := by
      unfold hopsLeft at hj
      unfold InRange minInt maxInt messageAfter at *
      simp only
      omega
    obtain ⟨e, hmem, hreq⟩ := chainCall_mem R o p i j hW.size_pos hij hj
    unfold traverse
    rw [hk]
    exact ringRun_fault_502 R W hW (hopsLeft p - i) _ _ _ hlo hhi hEnd hInE hIn hk
      (by omega) ⟨e, hmem, by rw [hreq]; exact hFault⟩
  refine ⟨hall, ?_⟩
  have h0 := hall 0 (Nat.zero_le j)
  rw [nodeAfter_zero R o ho hoN, messageAfter_zero] at h0
  exact h0

/-- Witness of amended C6: the collector call of `{end:2, current:0}` from node 0
times out. -/
theorem transport_failure_surfaces_as_502_demo :
    demoRing.Wired collectorDownWorld ∧
    collectorDownWorld.fault (chainCall demoRing 0 ⟨2, 0⟩ 2) ≠ none ∧
    (∀ i, i ≤ 2 →
      ∃ r tr, traverse demoRing collectorDownWorld (nodeAfter demoRing 0 i)
          (messageAfter ⟨2, 0⟩ i) = some (.wrote r, tr) ∧ r.status = 502) ∧
    ∃ r tr, traverse demoRing collectorDownWorld 0 ⟨2, 0⟩ = some (.wrote r, tr) ∧
      r.status = 502 :=
  ⟨demoRing_wired_collectorDown, by decide,
    transport_failure_surfaces_as_502 demoRing collectorDownWorld 0 ⟨2, 0⟩ 2
      demoRing_wired_collectorDown
      (by decide) (by decide) (by decide) (by decide) (by decide) (by decide) (by decide)⟩

/-! ## Who reports, and ring wrap-around -/

/-- C7: in a wired ring with a reliable transport, for a message with
`current < end` submitted to node `o`, the only completion report is sent by the
node with ordinal `(o + (end - current)) mod N`, and it carries that ordinal as
`magnet_id` and `<baseName>-<ordinal>` as `magnet_name`; in the ring of four
magnets, `{end:2, current:0}` at node 0 yields the report
`{end:2, current:2, magnet_id:2, magnet_name:"magnet-2"}` from node 2. -/
theorem report_sent_by_final_node (R : Ring) (W : World) (o : Int) (p : HopPayload)
    (hW : R.Wired W) (hRel : W.Reliable) (ho : 0 ≤ o) (hoN : o < R.ringSize)
    (hEnd : 0 ≤ p.End) (hCur : p.Current < p.End)
    (hInE : InRange p.End) (hInC : InRange p.Current) :
    (traverse R W o p).map (fun x => reportEvents x.2) =
      some [⟨(o + (p.End - p.Current)) % R.ringSize,
        ⟨R.experimentURL,
          .report
            { End := p.End
              Current := p.End
              MagnetID := (o + (p.End - p.Current)) % R.ringSize
              MagnetName := R.baseName ++ "-"
                ++ String.mk (formatInt ((o + (p.End - p.Current)) % R.ringSize)) }⟩⟩] ∧
    (traverse demoRing demoWorld 0 ⟨2, 0⟩).map (fun x => reportEvents x.2) =
      some [⟨2, ⟨"http://experiment-cake:8080/observe",
        .report { End := 2, Current := 2, MagnetID := 2, MagnetName := "magnet-2" }⟩⟩] := by
  constructor
  · obtain ⟨r, hr⟩ := traverse_reliable R W o p hW hRel ho hoN hEnd hInE hInC
    rw [hr, Option.map_some', reportEvents_chain R o p _ _ ⟨_, rfl⟩]
    have hk : (hopsLeft p : Int) = p.End - p.Current := by unfold hopsLeft; omega
    have hlast : p.Current + (hopsLeft p : Int) = p.End := by omega
    have hsum : p.Current + (p.End - p.Current) = p.End := by omega
    simp only [reportCall, messageAfter, nodeAfter, hk, hsum]
  · decide

/-- Witness of C7 with a wrap-around: `{end:3, current:1}` at node 3 of four. -/
theorem report_sent_by_final_node_demo :
    demoRing.Wired demoWorld ∧ demoWorld.Reliable ∧
    (traverse demoRing demoWorld 3 ⟨3, 1⟩).map (fun x => reportEvents x.2) =
      some [⟨1, ⟨"http://experiment-cake:8080/observe",
        .report { End := 3, Current := 3, MagnetID := 1, MagnetName := "magnet-1" }⟩⟩] :=
  ⟨demoRing_wired, demoWorld_reliable,
    (report_sent_by_final_node demoRing demoWorld 3 ⟨3, 1⟩ demoRing_wired demoWorld_reliable
      (by decide) (by decide) (by decide) (by decide) (by decide) (by decide)).1⟩

/-- C8: for every ring size `N >= 1`, the node with ordinal `N - 1` that
forwards a message (`end >= 0`, `current < end`) computes successor ordinal `0`
and makes its one call to `http://<baseName>-0.<serviceDNS>:8080/hop`, with the
forwarded message as body. -/
theorem hopHandler_wraps_to_zero (cfg : Config) (net : Net) (p : HopPayload)
    (hN : 1 ≤ cfg.ringSize) (hMax : cfg.ringSize ≤ maxInt)
    (hLast : cfg.myID = cfg.ringSize - 1)
    (hEnd : 0 ≤ p.End) (hCur : p.Current < p.End)
    (hReq : net.newRequestOk (hopURL cfg.baseName 0 cfg.serviceDNS) = true) :
    Int.tmod (wrapInt (cfg.myID + 1)) cfg.ringSize = 0 ∧
    (hopHandler cfg net (some p)).calls =
      [⟨"http://" ++ cfg.baseName ++ "-0." ++ cfg.serviceDNS ++ ":8080/hop",
        .hop { End := p.End, Current := wrapInt (p.Current + 1) }⟩] := by
  have h1 : ¬ p.End < 0 := by omega
  have h2 : ¬ p.End ≤ p.Current := by omega
  have h3 : cfg.ringSize ≠ 0 := by omega
  have hw : wrapInt (cfg.myID + 1) = cfg.ringSize := by
    rw [hLast]
    have : cfg.ringSize - 1 + 1 = cfg.ringSize := by omega
    rw [this]
    exact wrapInt_of_inRange _ ⟨by unfold minInt; omega, hMax⟩
  have h0 : Int.tmod (wrapInt (cfg.myID + 1)) cfg.ringSize = 0 := by
    rw [hw]; exact Int.tmod_self
  refine ⟨h0, ?_⟩
  simp only [hopHandler, h1, h2, h3, if_false, ge_iff_le, h0, hReq, ← hopURL_zero]
  cases net.Do _ <;> simp

/-- Witness of C8: node 3 of the ring of four forwards `{end:9, current:4}`. -/
theorem hopHandler_wraps_to_zero_demo :
    (1 : Int) ≤ 4 ∧ (demoRing.node 3).myID = (demoRing.node 3).ringSize - 1 ∧
    Int.tmod (wrapInt ((demoRing.node 3).myID + 1)) (demoRing.node 3).ringSize = 0 ∧
    (hopHandler (demoRing.node 3) deadNet (some ⟨9, 4⟩)).calls =
      [⟨"http://" ++ (demoRing.node 3).baseName ++ "-0." ++ (demoRing.node 3).serviceDNS
          ++ ":8080/hop",
        .hop { End := 9, Current := wrapInt (4 + 1) }⟩] :=
  ⟨by decide, by decide,
    hopHandler_wraps_to_zero (demoRing.node 3) deadNet ⟨9, 4⟩ (by decide) (by decide)
      (by decide) (by decide) (by decide) rfl⟩

/-! ## Identity resolver -/

/-- C9: for every prefix (dashes and digits included) and every `n` with
`0 <= n <= maxInt`, `detectMyID` on the hostname `<prefix>-<decimal n>` returns `n`
and is not fatal, whatever the `base` argument. -/
theorem detectMyID_parses_ordinal (pre base : String) (n : Int)
    (h0 : 0 ≤ n) (hmax : n ≤ maxInt) :
    detectMyID base (.ok (pre ++ "-" ++ String.mk (formatInt n))) = .ok n := by
  obtain ⟨m, rfl⟩ := Int.eq_ofNat_of_zero_le h0
  have hf : formatInt (m : Int) = formatNat m := by
    simp [formatInt]
  have hnd : '-' ∉ formatNat m := by
    intro hmem
    obtain ⟨d, hd10, hcd⟩ := natDigits_mem _ _ _ hmem
    exact (digitChar_ne_dash d hd10).1 hcd.symm
  have hdata : (pre ++ "-" ++ String.mk (formatInt (m : Int))).data
      = pre.data ++ '-' :: formatNat m := by
    simp [String.data_append, hf]
  simp only [detectMyID, hdata, Split_append_dash, Split_no_dash _ hnd]
  simp [Atoi_formatNat m hmax]

/-- Witness of C9: hostname `ring-7-magnet-12` with an unrelated `base`. -/
theorem detectMyID_parses_ordinal_demo :
    (0 : Int) ≤ 12 ∧ (12 : Int) ≤ maxInt ∧
    detectMyID "other" (.ok ("ring-7-magnet" ++ "-" ++ String.mk (formatInt 12))) = .ok 12 :=
  ⟨by decide, by decide, detectMyID_parses_ordinal "ring-7-magnet" "other" 12 (by decide)
    (by decide)⟩

/-! ## Chain depth -/

/-- C10 fails as stated: the first node accepts `{end:1, current:-3}` and the
traversal makes four forwarding hops before the collector is reached. -/
theorem hops_exceed_end_for_negative_current :
    (hopHandler (demoRing.node 0) deadNet (some ⟨1, -3⟩)).outcome.status ≠ some 400 ∧
    (traverse demoRing demoWorld 0 ⟨1, -3⟩).map
      (fun x => (x.1.status, (hopEvents x.2).length, (reportEvents x.2).length))
      = some (some 200, 4, 1) ∧
    ¬ ((4 : Int) ≤ 1) :=
  ⟨by decide, by decide, by decide⟩

/-- C10, amended: for every request the first node accepts (`end >= 0`), the
traversal answers and makes at most `max 0 (end - current)` forwarding hops,
whatever calls fail on the way; this is at most `end` when `current >= 0`. -/
theorem hops_bounded_by_end_minus_current (R : Ring) (W : World) (o : Int) (p : HopPayload)
    (hW : R.Wired W) (ho : 0 ≤ o) (hoN : o < R.ringSize)
    (hEnd : 0 ≤ p.End) (hInE : InRange p.End) (hInC : InRange p.Current) :
    ∃ r tr, traverse R W o p = some (.wrote r, tr) ∧
      ((hopEvents tr).length : Int) ≤ max 0 (p.End - p.Current) ∧
      (0 ≤ p.Current → ((hopEvents tr).length : Int) ≤ p.End) := by
  obtain ⟨r, tr, hrun, hlen⟩ :=
    ringRun_hops_le R W hW (hopsLeft p) (hopsLeft p + 1) o p ho hoN hEnd hInE hInC rfl
      (by omega)
  refine ⟨r, tr, hrun, ?_, ?_⟩
  · unfold hopsLeft at hlen
    omega
  · intro hc
    unfold hopsLeft at hlen
    omega

/-- Witness of amended C10 on the ring of four magnets, with the collector down. -/
theorem hops_bounded_by_end_minus_current_demo :
    demoRing.Wired collectorDownWorld ∧
    ∃ r tr, traverse demoRing collectorDownWorld 2 ⟨6, 1⟩ = some (.wrote r, tr) ∧
      ((hopEvents tr).length : Int) ≤ max 0 (6 - 1) ∧
      ((0 : Int) ≤ 1 → ((hopEvents tr).length : Int) ≤ 6) :=
  ⟨demoRing_wired_collectorDown,
    hops_bounded_by_end_minus_current demoRing collectorDownWorld 2 ⟨6, 1⟩
      demoRing_wired_collectorDown
    (by decide) (by decide) (by decide) (by decide) (by decide)⟩

end Magnet
